import Mathlib

/-!
Shallow embedding of the atom-set data structure and its algorithms from
`src/fw/atoms.hpp` (class `Atoms`: `AddAtom`, `RecoverVector`, `PruneSupport`,
`ProjectedGradientEnhancement`, `ProjectionToL1`).

Scalars (C++ `double`) are embedded as rationals, vectors (`arma::vec`) as
`List ℚ`, and matrices as lists of columns (`arma::mat` stores atoms as
columns).  Operations whose C++ counterpart is undefined (division by zero,
indexing into empty storage, least-squares refit against an empty matrix)
return `Option.none` in the guarded embedding.
-/

namespace FW

/-- Dot product of two vectors (`arma` inner product). -/
def dot (a b : List ℚ) : ℚ := (List.zipWith (· * ·) a b).sum

/-- Scalar multiple of a vector. -/
def vecScale (c : ℚ) (v : List ℚ) : List ℚ := v.map (fun t => c * t)

/-- Matrix-vector product where the matrix is given by its columns:
`matVec cols coeffs = Σ coeffs i • cols i`.  An empty matrix yields the
empty vector, matching `arma`'s `(d×0)·(0×1) = (0×1)` and the source's
`currentAtoms * currentCoeffs` on an empty atom set. -/
def matVec : List (List ℚ) → List ℚ → List ℚ
  | [], _ => []
  | _, [] => []
  | col :: cols, c :: cs =>
    let rest := matVec cols cs
    if rest.isEmpty then vecScale c col else List.zipWith (· + ·) (vecScale c col) rest

/-- Matrix-vector product where the matrix is given by its rows. -/
def matVecRows (rows : List (List ℚ)) (x : List ℚ) : List ℚ :=
  rows.map (fun r => dot r x)

/-- The state of the `Atoms` class: coefficient vector `currentCoeffs` and
atom matrix `currentAtoms` stored as its list of columns. -/
structure Atoms where
  currentCoeffs : List ℚ
  currentAtoms : List (List ℚ)
deriving DecidableEq, Repr

/-- Embedding of `Atoms::AddAtom`: prepend atom `v` with coefficient `c`;
on an empty atom matrix the source assigns the storage directly
(`CurrentAtoms() = v; CurrentCoeffs() = c`, producing one column and one
coefficient). -/
def AddAtom (a : Atoms) (v : List ℚ) (c : ℚ) : Atoms :=
  if a.currentAtoms.isEmpty then ⟨[c], [v]⟩
  else ⟨c :: a.currentCoeffs, v :: a.currentAtoms⟩

/-- Embedding of `Atoms::RecoverVector`: `x = currentAtoms * currentCoeffs`. -/
def RecoverVector (a : Atoms) : List ℚ :=
  matVec a.currentAtoms a.currentCoeffs

/-- Descending sort by value, embedding `arma::sort(·, "descend")`. -/
def sortDesc (l : List ℚ) : List ℚ :=
  l.insertionSort (fun a b => b ≤ a)

/-- Cumulative sums, embedding `arma::cumsum`. -/
def cumsum : List ℚ → List ℚ
  | [] => []
  | x :: xs => x :: (cumsum xs).map (fun t => x + t)

/-- The pivot search of `ProjectionToL1`: the source loops
`for (j = 1; j <= n; j++) { rho = n - j; nu = s(rho) - (cum(rho) - tau)/(rho+1); if (nu > 0) break; }`,
i.e. it scans `rho` downward from `n-1` and stops at the first index whose
test is positive; if no test is positive, the loop ends with `rho = 0`. -/
def findPivot (s cum : List ℚ) (tau : ℚ) : ℕ → ℕ
  | 0 => 0
  | r + 1 =>
    if 0 < s.getD (r + 1) 0 - (cum.getD (r + 1) 0 - tau) / ((r : ℚ) + 2) then r + 1
    else findPivot s cum tau r

/-- Sorted vector of absolute values (`simplexSol` after the sort). -/
def sortedAbs (c : List ℚ) : List ℚ := sortDesc (c.map (fun x => |x|))

/-- The pivot index `rho` computed by `ProjectionToL1` for input `c`. -/
def pivotOf (c : List ℚ) (tau : ℚ) : ℕ :=
  findPivot (sortedAbs c) (cumsum (sortedAbs c)) tau (c.length - 1)

/-- The threshold `theta = (simplexSum(rho) - tau)/rho` of `ProjectionToL1`
(note the divisor is `rho`, not `rho + 1`). -/
def thetaOf (c : List ℚ) (tau : ℚ) : ℚ :=
  ((cumsum (sortedAbs c)).getD (pivotOf c tau) 0 - tau) / ((pivotOf c tau : ℕ) : ℚ)

/-- The per-component thresholding step of `ProjectionToL1`:
`max(x - theta, 0)` for nonnegative `x`, `min(x + theta, 0)` otherwise. -/
def softThreshold (theta x : ℚ) : ℚ :=
  if 0 ≤ x then max (x - theta) 0 else min (x + theta) 0

/-- Guarded embedding of `Atoms::ProjectionToL1` acting on a coefficient
vector.  `none` marks the two undefined situations of the source: an empty
coefficient vector entering the infeasible branch (the pivot variable is
read uninitialized and `simplexSum(rho)` indexes empty storage), and a pivot
`rho = 0` (the threshold computation `(simplexSum(rho) - tau)/rho` divides
by zero). -/
def ProjectionToL1 (c : List ℚ) (tau : ℚ) : Option (List ℚ) :=
  if (c.map (fun x => |x|)).sum ≤ tau then some c
  else if c.length = 0 then none
  else if pivotOf c tau = 0 then none
  else some (c.map (softThreshold (thetaOf c tau)))

/-- Modelled from the spec: `FuncSq::Evaluate` (file `func_sq.hpp` is not
part of the provided sources).  Spec §3: the least-squares objective is
`f(x) = 0.5 · ‖A x − b‖²` with design matrix `A` (given here by rows) and
target vector `b`. -/
def FuncSqEvaluate (Arows : List (List ℚ)) (b x : List ℚ) : ℚ :=
  (1 / 2) * ((List.zipWith (· - ·) (matVecRows Arows x) b).map (fun t => t ^ 2)).sum

/-- Modelled from the spec: `FuncSq::Gradient` (file `func_sq.hpp` is not
part of the provided sources).  The gradient of `0.5 · ‖A x − b‖²` is
`Aᵀ (A x − b)`; the rows of `Aᵀ` are the columns of `A`. -/
def FuncSqGradient (Arows : List (List ℚ)) (b x : List ℚ) : List ℚ :=
  matVecRows Arows.transpose (List.zipWith (· - ·) (matVecRows Arows x) b)

/-- The per-atom scores precomputed by `PruneSupport`:
`atomSqTerm_i = 0.5 · ‖A · atom_i‖² · coeff_i²`. -/
def atomSqTermOf (Arows : List (List ℚ)) (atoms : List (List ℚ)) (coeffs : List ℚ) :
    List ℚ :=
  List.zipWith (fun v c => (1 / 2) * ((matVecRows Arows v).map (fun t => t ^ 2)).sum * c ^ 2)
    atoms coeffs

/-- The gap vector of one `PruneSupport` iteration:
`gap_i = atomSqTerm_i − coeff_i · (gradientᵀ · atom_i)` where the gradient is
taken at the recovered solution. -/
def gapOf (Arows : List (List ℚ)) (b : List ℚ) (atoms : List (List ℚ))
    (coeffs sq : List ℚ) : List ℚ :=
  let g := FuncSqGradient Arows b (matVec atoms coeffs)
  List.zipWith (fun s (p : ℚ × List ℚ) => s - p.1 * dot p.2 g) sq (coeffs.zip atoms)

/-- Minimum value of a list (`0` on the empty list, which is guarded away
by the callers). -/
def listMin : List ℚ → ℚ
  | [] => 0
  | x :: xs => xs.foldl min x

/-- Index of the first occurrence of the minimum, embedding
`arma`'s `gap.min(ind)` (ties broken by first occurrence). -/
def argmin (l : List ℚ) : ℕ := l.indexOf (listMin l)

/-- Guarded embedding of the `while (true)` loop of `Atoms::PruneSupport`,
fuelled by a natural number.  The solver `solve`, standing for
`arma::solve` (a numerical-library primitive, out of scope per spec §1),
takes the matrix `A · newAtoms` by columns and the target `b`.  `none` marks
the undefined situations: the gap minimization over an empty atom set, and
the least-squares refit against an empty atom matrix (the trial deletion of
the last remaining atom). -/
def pruneLoop (solve : List (List ℚ) → List ℚ → List ℚ) (Arows : List (List ℚ))
    (b : List ℚ) (F : ℚ) :
    ℕ → List (List ℚ) → List ℚ → List ℚ → Option (List (List ℚ) × List ℚ)
  | 0, _, _, _ => none
  | fuel + 1, atoms, coeffs, sq =>
    if atoms.isEmpty then none
    else
      let ind := argmin (gapOf Arows b atoms coeffs sq)
      let newAtoms := atoms.eraseIdx ind
      if newAtoms.isEmpty then none
      else
        let newCoeffs := solve (newAtoms.map (matVecRows Arows)) b
        let Fnew := FuncSqEvaluate Arows b (matVec newAtoms newCoeffs)
        if F < Fnew then some (atoms, coeffs)
        else pruneLoop solve Arows b F fuel newAtoms newCoeffs (sq.eraseIdx ind)

/-- Guarded embedding of `Atoms::PruneSupport`.  The fuel
`currentAtoms.length + 1` is enough: every committed deletion removes
exactly one column, and the loop stops (or errors) no later than the trial
deletion of the last atom. -/
def PruneSupport (solve : List (List ℚ) → List ℚ → List ℚ) (Arows : List (List ℚ))
    (b : List ℚ) (F : ℚ) (a : Atoms) : Option Atoms :=
  (pruneLoop solve Arows b F (a.currentAtoms.length + 1) a.currentAtoms a.currentCoeffs
      (atomSqTermOf Arows a.currentAtoms a.currentCoeffs)).map
    (fun p => ⟨p.2, p.1⟩)

/-- Guarded embedding of the loop of `Atoms::ProjectedGradientEnhancement`
(`for (iter = 1; iter < maxIteration; iter++)`), instrumented with the
number of executed loop bodies (second component).  The projection failing
aborts the computation (`none`); a partial body still counts as one
execution. -/
def pgeLoop (fEval : List ℚ → ℚ) (fGrad : List ℚ → List ℚ)
    (atoms : List (List ℚ)) (tau stepSize tolerance : ℚ) :
    ℕ → List ℚ → ℚ → Option (List ℚ) × ℕ
  | 0, coeffs, _ => (some coeffs, 0)
  | n + 1, coeffs, value =>
    let g := fGrad (matVec atoms coeffs)
    let gp := atoms.map (fun a => dot a g)
    let c1 := List.zipWith (fun c gi => c - stepSize * gi) coeffs gp
    match ProjectionToL1 c1 tau with
    | none => (none, 1)
    | some c2 =>
      let valueNew := fEval (matVec atoms c2)
      if value - valueNew < tolerance then (some c2, 1)
      else
        let r := pgeLoop fEval fGrad atoms tau stepSize tolerance n c2 valueNew
        (r.1, r.2 + 1)

/-- Guarded embedding of `Atoms::ProjectedGradientEnhancement`.  The
function type parameter of the C++ template is abstracted by its
`Evaluate`/`Gradient` capabilities.  The loop body runs at most
`maxIteration - 1` times. -/
def ProjectedGradientEnhancement (fEval : List ℚ → ℚ) (fGrad : List ℚ → List ℚ)
    (tau stepSize : ℚ) (maxIteration : ℕ) (tolerance : ℚ) (a : Atoms) : Option Atoms :=
  let x := matVec a.currentAtoms a.currentCoeffs
  ((pgeLoop fEval fGrad a.currentAtoms tau stepSize tolerance (maxIteration - 1)
        a.currentCoeffs (fEval x)).1).map
    (fun cs => ⟨cs, a.currentAtoms⟩)

/-- Well-formedness of an `Atoms` state as representable by the C++ class:
one coefficient per atom and all atoms of a common dimension `d`. -/
def WF (a : Atoms) (d : ℕ) : Prop :=
  a.currentCoeffs.length = a.currentAtoms.length ∧
    ∀ col ∈ a.currentAtoms, col.length = d

/-- A concrete stand-in for the abstract least-squares solver, used to
instantiate universally quantified statements at specific inputs. -/
def solveStub (M : List (List ℚ)) (_ : List ℚ) : List ℚ :=
  if M.length = 2 then [1 / 2, 1 / 2] else [7]

end FW

namespace FW

/-- Helper: the instrumented loop of `ProjectedGradientEnhancement` executes
its body at most `n` times when given the bound `n`. -/
theorem pgeLoop_count_le (fE : List ℚ → ℚ) (fG : List ℚ → List ℚ) (atoms : List (List ℚ))
    (tau step tol : ℚ) : ∀ (n : ℕ) (coeffs : List ℚ) (value : ℚ),
    (pgeLoop fE fG atoms tau step tol n coeffs value).2 ≤ n := by
  intro n
  induction n with
  | zero => intro coeffs value; simp [pgeLoop]
  | succ n ih =>
    intro coeffs value
    rw [pgeLoop]
    split
    · simp
    · dsimp only
      split
      · simp
      · simpa using Nat.succ_le_succ (ih _ _)

/-- Claim C1: for the input coefficients `[0.7, 0.5, -0.9]` with `tau = 1`,
`ProjectionToL1` takes the infeasible branch (the absolute values sum to
`21/10 > 1`), sorts them to `[9/10, 7/10, 1/2]` with cumulative sums
`[9/10, 8/5, 21/10]`, selects pivot `rho = 2`, computes
`theta = (21/10 - 1)/2 = 11/20` (divisor `rho`, not `rho + 1`), and returns
exactly `[3/20, 0, -7/20]`, the middle component thresholded to exactly
zero. -/
theorem projection_numeric_example :
    ¬ (([(7 : ℚ)/10, 1/2, -9/10].map (fun x => |x|)).sum ≤ 1) ∧
    sortedAbs [(7 : ℚ)/10, 1/2, -9/10] = [9/10, 7/10, 1/2] ∧
    cumsum (sortedAbs [(7 : ℚ)/10, 1/2, -9/10]) = [9/10, 8/5, 21/10] ∧
    pivotOf [(7 : ℚ)/10, 1/2, -9/10] 1 = 2 ∧
    thetaOf [(7 : ℚ)/10, 1/2, -9/10] 1 = (21/10 - 1) / 2 ∧
    thetaOf [(7 : ℚ)/10, 1/2, -9/10] 1 = 11/20 ∧
    ProjectionToL1 [(7 : ℚ)/10, 1/2, -9/10] 1 = some [3/20, 0, -7/20] := by
  refine ⟨by norm_num [abs_div, abs_neg], ?_, ?_, ?_, ?_, ?_, ?_⟩ <;>
    norm_num [ProjectionToL1, pivotOf, thetaOf, sortedAbs, sortDesc, cumsum, findPivot,
      softThreshold, List.insertionSort, List.orderedInsert, abs_div, abs_neg]

/-- Claim C2: for any one-element coefficient vector whose absolute value
exceeds `tau > 0`, the pivot scan of `ProjectionToL1` stops at `rho = 0` and
the threshold computation `theta = (simplexSum(rho) - tau)/rho` divides by
zero, so the guarded embedding returns its error branch; moreover that error
branch is reachable from the public `ProjectedGradientEnhancement`
interface (here: a one-atom state with the least-squares objective
`A = [[1]], b = [0]`, `tau = 1`, step size `0`). -/
theorem projection_theta_div_by_zero_reachable (c tau : ℚ) (h0 : 0 < tau) (h : tau < |c|) :
    pivotOf [c] tau = 0 ∧
    ProjectionToL1 [c] tau = none ∧
    ProjectedGradientEnhancement (FuncSqEvaluate [[1]] [0]) (FuncSqGradient [[1]] [0]) 1 0 2
      (1 / 1000) ⟨[2], [[1]]⟩ = none := by
  have hpivot : pivotOf [c] tau = 0 := rfl
  refine ⟨hpivot, ?_, ?_⟩
  · rw [ProjectionToL1]
    have hs : (([c].map (fun x => |x|)).sum) = |c| := by simp
    rw [hs, if_neg (not_le.2 h)]
    simp [hpivot]
  · norm_num [ProjectedGradientEnhancement, pgeLoop, ProjectionToL1, pivotOf, thetaOf, sortedAbs,
      sortDesc, cumsum, findPivot, softThreshold, matVec, matVecRows, FuncSqGradient,
      FuncSqEvaluate, dot, vecScale, List.insertionSort, List.orderedInsert, List.transpose,
      abs_div, abs_neg]

/-- Witness for claim C2 at the concrete input `c = 5`, `tau = 1`. -/
theorem projection_theta_div_by_zero_reachable_witness :
    pivotOf [(5 : ℚ)] 1 = 0 ∧
    ProjectionToL1 [(5 : ℚ)] 1 = none ∧
    ProjectedGradientEnhancement (FuncSqEvaluate [[1]] [0]) (FuncSqGradient [[1]] [0]) 1 0 2
      (1 / 1000) ⟨[2], [[1]]⟩ = none :=
  projection_theta_div_by_zero_reachable 5 1 (by norm_num) (by norm_num)

/-- Claim C3 counterexample: calling `PruneSupport` on a state holding
exactly one atom makes the very first trial deletion refit against an empty
atom matrix — the guarded embedding reaches its error branch instead of
refusing the deletion. -/
theorem pruneSupport_single_atom_error :
    PruneSupport solveStub [[1]] [1] 0 ⟨[1], [[1]]⟩ = none := by
  norm_num [PruneSupport, pruneLoop, atomSqTermOf, gapOf, argmin, listMin, matVec, matVecRows,
    FuncSqGradient, FuncSqEvaluate, dot, vecScale, solveStub, List.transpose]

/-- Claim C3 amended: `PruneSupport` does not guard the last remaining atom:
for every one-atom state, every solver, objective data and threshold, the
first trial deletion empties the atom matrix and the computation reaches the
(undefined) least-squares refit against an empty matrix, the error branch of
the guarded embedding. -/
theorem pruneSupport_no_last_atom_guard (solve : List (List ℚ) → List ℚ → List ℚ)
    (Arows : List (List ℚ)) (b : List ℚ) (F : ℚ) (v : List ℚ) (c : ℚ) :
    PruneSupport solve Arows b F ⟨[c], [v]⟩ = none := by
  simp [PruneSupport, pruneLoop, atomSqTermOf, gapOf, argmin, listMin,
    List.indexOf_cons_self]

/-- Claim C4: whenever the very first trial deletion of `PruneSupport` (the
deletion of the argmin-gap atom) is rejected (`Fnew > F`), the call returns
the atom matrix and the coefficient vector exactly as they were before the
call. -/
theorem pruneSupport_rejection_frame (solve : List (List ℚ) → List ℚ → List ℚ)
    (Arows : List (List ℚ)) (b : List ℚ) (F : ℚ) (a : Atoms) (d : ℕ) (hwf : WF a d)
    (hne : a.currentAtoms ≠ [])
    (hne2 : a.currentAtoms.eraseIdx (argmin (gapOf Arows b a.currentAtoms a.currentCoeffs
        (atomSqTermOf Arows a.currentAtoms a.currentCoeffs))) ≠ [])
    (hrej : F < FuncSqEvaluate Arows b (matVec
        (a.currentAtoms.eraseIdx (argmin (gapOf Arows b a.currentAtoms a.currentCoeffs
          (atomSqTermOf Arows a.currentAtoms a.currentCoeffs))))
        (solve ((a.currentAtoms.eraseIdx (argmin (gapOf Arows b a.currentAtoms a.currentCoeffs
          (atomSqTermOf Arows a.currentAtoms a.currentCoeffs)))).map (matVecRows Arows)) b))) :
    PruneSupport solve Arows b F a = some a := by
  rw [PruneSupport, pruneLoop]
  simp [hne, hne2, hrej]

/-- Witness for claim C4: a two-atom state whose first trial deletion is
rejected (`F = -1 < Fnew = 18`) is returned byte-for-byte unchanged. -/
theorem pruneSupport_rejection_frame_witness :
    PruneSupport solveStub [[1]] [1] (-1) ⟨[1/2, 1/2], [[1], [1]]⟩ =
      some ⟨[1/2, 1/2], [[1], [1]]⟩ :=
  pruneSupport_rejection_frame solveStub [[1]] [1] (-1) ⟨[1/2, 1/2], [[1], [1]]⟩ 1
    ⟨rfl, by
      intro col hcol
      simp only [List.mem_cons, List.not_mem_nil, or_false] at hcol
      rcases hcol with h | h <;> subst h <;> rfl⟩
    (by simp)
    (by norm_num [argmin, listMin, gapOf, atomSqTermOf, matVec, matVecRows, vecScale, dot,
      FuncSqGradient, List.transpose, List.indexOf_cons_self])
    (by norm_num [argmin, listMin, gapOf, atomSqTermOf, matVec, matVecRows, vecScale, dot,
      FuncSqGradient, FuncSqEvaluate, solveStub, List.transpose, List.indexOf_cons_self])

/-- Claim C9: `RecoverVector` is exactly the matrix-vector product
`currentAtoms * currentCoeffs` (a pure computation of the state, with no
side effect possible in this embedding); on an empty atom set it returns the
empty vector, and after `AddAtom v c` on an empty set it returns the
element-wise scaled copy `c * v`. -/
theorem recoverVector_spec :
    (∀ a : Atoms, RecoverVector a = matVec a.currentAtoms a.currentCoeffs) ∧
    (∀ cs : List ℚ, RecoverVector ⟨cs, []⟩ = []) ∧
    (∀ (v : List ℚ) (c : ℚ), RecoverVector (AddAtom ⟨[], []⟩ v c) = v.map (fun t => c * t)) := by
  refine ⟨fun a => rfl, fun cs => by cases cs <;> rfl, fun v c => ?_⟩
  simp [RecoverVector, AddAtom, matVec, vecScale]

/-- Claim C10: `ProjectedGradientEnhancement` hands its loop the iteration
budget `maxIteration - 1` (the C++ loop `for (iter = 1; iter < maxIteration;
iter++)`), and the loop body is executed at most `maxIteration - 1` times;
in particular with `maxIteration = 1` the body is executed zero times, hence
at most one gradient/projection step regardless of convergence. -/
theorem pge_iteration_bound (fE : List ℚ → ℚ) (fG : List ℚ → List ℚ) (tau step tol : ℚ)
    (maxIteration : ℕ) (a : Atoms) :
    ProjectedGradientEnhancement fE fG tau step maxIteration tol a =
      ((pgeLoop fE fG a.currentAtoms tau step tol (maxIteration - 1) a.currentCoeffs
          (fE (matVec a.currentAtoms a.currentCoeffs))).1).map
        (fun cs => ⟨cs, a.currentAtoms⟩) ∧
    (∀ (coeffs : List ℚ) (value : ℚ),
      (pgeLoop fE fG a.currentAtoms tau step tol (maxIteration - 1) coeffs value).2 ≤
        maxIteration - 1) ∧
    (maxIteration = 1 → ∀ (coeffs : List ℚ) (value : ℚ),
      (pgeLoop fE fG a.currentAtoms tau step tol (maxIteration - 1) coeffs value).2 = 0) := by
  refine ⟨rfl, fun coeffs value => pgeLoop_count_le _ _ _ _ _ _ _ _ _, ?_⟩
  rintro rfl coeffs value
  simp [pgeLoop]

end FW

namespace FW

theorem foldl_min_mem (x : ℚ) (xs : List ℚ) : xs.foldl min x ∈ x :: xs := by
  induction xs generalizing x with
  | nil => simp
  | cons y ys ih =>
    have h := ih (min x y)
    simp only [List.foldl_cons]
    rcases List.mem_cons.1 h with h1 | h1
    · rcases min_choice x y with hc | hc <;> rw [h1, hc] <;> simp
    · simp [h1]

theorem argmin_lt_length (l : List ℚ) (h : l ≠ []) : argmin l < l.length := by
  match l with
  | x :: xs =>
    exact List.indexOf_lt_length.2 (foldl_min_mem x xs)

theorem gapOf_length_le (Arows : List (List ℚ)) (b : List ℚ) (atoms : List (List ℚ))
    (coeffs sq : List ℚ) : (gapOf Arows b atoms coeffs sq).length ≤ atoms.length := by
  simp only [gapOf, List.length_zipWith, List.length_zip]
  omega

theorem erase_argmin_length (atoms : List (List ℚ)) (g : List ℚ) (hne : atoms ≠ [])
    (hlen : g.length ≤ atoms.length) :
    (atoms.eraseIdx (argmin g)).length + 1 = atoms.length := by
  have hlt : argmin g < atoms.length := by
    by_cases hg : g = []
    · subst hg
      simp only [argmin, listMin, List.indexOf, List.findIdx]
      exact List.length_pos.2 hne
    · exact lt_of_lt_of_le (argmin_lt_length g hg) hlen
  exact List.length_eraseIdx_add_one hlt

theorem pruneLoop_result (solve : List (List ℚ) → List ℚ → List ℚ) (Arows : List (List ℚ))
    (b : List ℚ) (F : ℚ) : ∀ (fuel : ℕ) (atoms : List (List ℚ)) (coeffs sq : List ℚ)
    (res : List (List ℚ) × List ℚ),
    pruneLoop solve Arows b F fuel atoms coeffs sq = some res →
    res = (atoms, coeffs) ∨
      (res.1.length < atoms.length ∧ FuncSqEvaluate Arows b (matVec res.1 res.2) ≤ F) := by
  intro fuel
  induction fuel with
  | zero => intro atoms coeffs sq res h; simp [pruneLoop] at h
  | succ fuel ih =>
    intro atoms coeffs sq res h
    rw [pruneLoop] at h
    split at h
    · exact absurd h (by simp)
    · next hne =>
      dsimp only at h
      split at h
      · exact absurd h (by simp)
      · next hne2 =>
        split at h
        · left; exact (Option.some_injective _ h).symm
        · next hrej =>
          have hnelist : atoms ≠ [] := by
            intro hc; subst hc; simp at hne
          have herase := erase_argmin_length atoms (gapOf Arows b atoms coeffs sq)
            hnelist (gapOf_length_le _ _ _ _ _)
          rcases ih _ _ _ _ h with heq | ⟨hlt, hle⟩
          · right
            rw [heq]
            dsimp only
            exact ⟨by omega, not_lt.1 hrej⟩
          · right
            exact ⟨by omega, hle⟩

end FW

namespace FW

/-- Claim C5: whenever the first trial deletion of `PruneSupport` is
accepted (`Fnew ≤ F`) and the call returns a state, the atom count has
strictly decreased by at least one and the recovered solution of the
returned state still evaluates at or below the threshold `F` (every
committed state was accepted at threshold `F`, and the final rejected trial
changes nothing). -/
theorem prune_acceptance (solve : List (List ℚ) → List ℚ → List ℚ) (Arows : List (List ℚ))
    (b : List ℚ) (F : ℚ) (a a' : Atoms) (d : ℕ) (hwf : WF a d)
    (hne : a.currentAtoms ≠ [])
    (hacc : FuncSqEvaluate Arows b (matVec
        (a.currentAtoms.eraseIdx (argmin (gapOf Arows b a.currentAtoms a.currentCoeffs
          (atomSqTermOf Arows a.currentAtoms a.currentCoeffs))))
        (solve ((a.currentAtoms.eraseIdx (argmin (gapOf Arows b a.currentAtoms a.currentCoeffs
          (atomSqTermOf Arows a.currentAtoms a.currentCoeffs)))).map (matVecRows Arows)) b)) ≤ F)
    (hres : PruneSupport solve Arows b F a = some a') :
    a'.currentAtoms.length < a.currentAtoms.length ∧
      FuncSqEvaluate Arows b (RecoverVector a') ≤ F := by
  rw [PruneSupport] at hres
  rcases Option.map_eq_some'.1 hres with ⟨p, hp, hpa⟩
  rw [pruneLoop] at hp
  rw [if_neg (by simpa using hne)] at hp
  dsimp only at hp
  split at hp
  · exact absurd hp (by simp)
  · next hne2 =>
    rw [if_neg (not_lt.2 hacc)] at hp
    have herase := erase_argmin_length a.currentAtoms
      (gapOf Arows b a.currentAtoms a.currentCoeffs
        (atomSqTermOf Arows a.currentAtoms a.currentCoeffs))
      hne (gapOf_length_le _ _ _ _ _)
    have hres2 := pruneLoop_result solve Arows b F _ _ _ _ _ hp
    subst hpa
    rcases hres2 with heq | ⟨hlt, hle⟩
    · rw [heq]
      dsimp only [RecoverVector]
      exact ⟨by omega, hacc⟩
    · exact ⟨by simpa using (by omega : p.1.length < a.currentAtoms.length), hle⟩

end FW

namespace FW

/-- Witness for claim C5: a three-atom state whose first trial deletion is
accepted at `F = 0` returns with two atoms and objective value `0 ≤ F`. -/
theorem prune_acceptance_witness :
    (⟨[1/2, 1/2], [[1], [1]]⟩ : Atoms).currentAtoms.length <
      (⟨[1/3, 1/3, 1/3], [[1], [1], [1]]⟩ : Atoms).currentAtoms.length ∧
    FuncSqEvaluate [[1]] [1] (RecoverVector ⟨[1/2, 1/2], [[1], [1]]⟩) ≤ 0 :=
  prune_acceptance solveStub [[1]] [1] 0 ⟨[1/3, 1/3, 1/3], [[1], [1], [1]]⟩
    ⟨[1/2, 1/2], [[1], [1]]⟩ 1
    ⟨rfl, by
      intro col hcol
      simp only [List.mem_cons, List.not_mem_nil, or_false] at hcol
      rcases hcol with h | h | h <;> subst h <;> rfl⟩
    (by simp)
    (by norm_num [argmin, listMin, gapOf, atomSqTermOf, matVec, matVecRows, vecScale, dot,
      FuncSqGradient, FuncSqEvaluate, solveStub, List.transpose, List.indexOf_cons_self])
    (by norm_num [PruneSupport, pruneLoop, argmin, listMin, gapOf, atomSqTermOf, matVec,
      matVecRows, vecScale, dot, FuncSqGradient, FuncSqEvaluate, solveStub, List.transpose,
      List.indexOf_cons_self])

end FW

namespace FW

theorem projectionToL1_length (c : List ℚ) (tau : ℚ) (y : List ℚ)
    (h : ProjectionToL1 c tau = some y) : y.length = c.length := by
  rw [ProjectionToL1] at h
  split at h
  · exact ((Option.some_injective _ h).symm ▸ rfl)
  · split at h
    · exact absurd h (by simp)
    · split at h
      · exact absurd h (by simp)
      · rw [← Option.some_injective _ h]
        exact List.length_map _ _

theorem pgeLoop_len (fE : List ℚ → ℚ) (fG : List ℚ → List ℚ) (atoms : List (List ℚ))
    (tau step tol : ℚ) : ∀ (n : ℕ) (coeffs : List ℚ) (value : ℚ) (res : List ℚ),
    coeffs.length = atoms.length →
    (pgeLoop fE fG atoms tau step tol n coeffs value).1 = some res →
    res.length = atoms.length := by
  intro n
  induction n with
  | zero =>
    intro coeffs value res hlen h
    simp only [pgeLoop] at h
    rw [← Option.some_injective _ h]
    exact hlen
  | succ n ih =>
    intro coeffs value res hlen h
    rw [pgeLoop] at h
    dsimp only at h
    have hc1 : (List.zipWith (fun c gi => c - step * gi) coeffs
        (atoms.map (fun a => dot a (fG (matVec atoms coeffs))))).length = atoms.length := by
      simp [List.length_zipWith, hlen]
    split at h
    · exact absurd h (by simp)
    · next c2 hp =>
      have hc2 : c2.length = atoms.length := by
        rw [projectionToL1_length _ _ _ hp]
        exact hc1
      split at h
      · rw [← Option.some_injective _ h]; exact hc2
      · exact ih _ _ _ hc2 h

end FW

namespace FW

theorem pruneLoop_len (solve : List (List ℚ) → List ℚ → List ℚ) (Arows : List (List ℚ))
    (b : List ℚ) (F : ℚ) (hsolve : ∀ M rhs, (solve M rhs).length = M.length) :
    ∀ (fuel : ℕ) (atoms : List (List ℚ)) (coeffs sq : List ℚ) (res : List (List ℚ) × List ℚ),
    coeffs.length = atoms.length →
    pruneLoop solve Arows b F fuel atoms coeffs sq = some res →
    res.2.length = res.1.length := by
  intro fuel
  induction fuel with
  | zero => intro atoms coeffs sq res hlen h; simp [pruneLoop] at h
  | succ fuel ih =>
    intro atoms coeffs sq res hlen h
    rw [pruneLoop] at h
    split at h
    · exact absurd h (by simp)
    · dsimp only at h
      split at h
      · exact absurd h (by simp)
      · split at h
        · rw [← Option.some_injective _ h]
          exact hlen
        · refine ih _ _ _ _ ?_ h
          rw [hsolve]
          exact List.length_map _ _

/-- Claim C8: the invariant `coefficients.length = atoms.count` is
preserved by every operation.  `AddAtom` grows both by one (including the
empty-set branch); `PruneSupport` preserves it given the `arma::solve`
library contract that the solved coefficient vector has one entry per
column of the solved system; `ProjectedGradientEnhancement` replaces the
coefficients by a vector of the same length. -/
theorem atoms_invariant (a : Atoms) (hinv : a.currentCoeffs.length = a.currentAtoms.length) :
    (∀ (v : List ℚ) (c : ℚ),
      (AddAtom a v c).currentCoeffs.length = (AddAtom a v c).currentAtoms.length ∧
      (AddAtom a v c).currentAtoms.length = a.currentAtoms.length + 1 ∧
      (AddAtom a v c).currentCoeffs.length = a.currentCoeffs.length + 1) ∧
    (∀ (solve : List (List ℚ) → List ℚ → List ℚ) (Arows : List (List ℚ)) (b : List ℚ)
      (F : ℚ) (a' : Atoms), (∀ M rhs, (solve M rhs).length = M.length) →
      PruneSupport solve Arows b F a = some a' →
      a'.currentCoeffs.length = a'.currentAtoms.length) ∧
    (∀ (fE : List ℚ → ℚ) (fG : List ℚ → List ℚ) (tau step : ℚ) (maxIteration : ℕ)
      (tol : ℚ) (a' : Atoms),
      ProjectedGradientEnhancement fE fG tau step maxIteration tol a = some a' →
      a'.currentCoeffs.length = a'.currentAtoms.length) := by
  refine ⟨?_, ?_, ?_⟩
  · intro v c
    rw [AddAtom]
    split
    · next hemp =>
      rw [List.isEmpty_iff] at hemp
      rw [hemp] at hinv
      simp only [List.length_nil] at hinv
      simp [hemp, hinv]
    · simp [hinv]
  · intro solve Arows b F a' hsolve hres
    rw [PruneSupport] at hres
    rcases Option.map_eq_some'.1 hres with ⟨p, hp, hpa⟩
    have := pruneLoop_len solve Arows b F hsolve _ _ _ _ _ hinv hp
    rw [← hpa]
    exact this
  · intro fE fG tau step maxIteration tol a' hres
    rw [ProjectedGradientEnhancement] at hres
    rcases Option.map_eq_some'.1 hres with ⟨cs, hcs, hpa⟩
    have := pgeLoop_len fE fG a.currentAtoms tau step tol _ _ _ _ hinv hcs
    rw [← hpa]
    exact this.trans rfl

/-- Witness for claim C8, exercising the `AddAtom` conjunct at a concrete
one-atom state. -/
theorem atoms_invariant_witness :
    ((AddAtom ⟨[1], [[1]]⟩ [2] 3).currentCoeffs.length =
        (AddAtom ⟨[1], [[1]]⟩ [2] 3).currentAtoms.length ∧
      (AddAtom ⟨[1], [[1]]⟩ [2] 3).currentAtoms.length = 2 ∧
      (AddAtom ⟨[1], [[1]]⟩ [2] 3).currentCoeffs.length = 2) := by
  have h := (atoms_invariant ⟨[1], [[1]]⟩ rfl).1 [2] 3
  exact h

end FW

namespace FW

theorem cumsum_length (l : List ℚ) : (cumsum l).length = l.length := by
  induction l with
  | nil => rfl
  | cons x xs ih => simp [cumsum, ih]

theorem cumsum_getD (l : List ℚ) (r : ℕ) (h : r < l.length) :
    (cumsum l).getD r 0 = (l.take (r + 1)).sum := by
  induction l generalizing r with
  | nil => simp at h
  | cons x xs ih =>
    cases r with
    | zero => simp [cumsum]
    | succ r =>
      have hr : r < xs.length := by simpa using h
      have hr2 : r < (cumsum xs).length := by rw [cumsum_length]; exact hr
      simp only [cumsum, List.take_succ_cons, List.sum_cons, List.getD_cons_succ]
      rw [List.getD_eq_getElem _ _ (by simpa using hr2), List.getElem_map,
        ← List.getD_eq_getElem _ 0 hr2, ih r hr]

theorem take_sum_succ (l : List ℚ) (r : ℕ) (h : r < l.length) :
    (l.take (r + 1)).sum = (l.take r).sum + l.getD r 0 := by
  induction l generalizing r with
  | nil => simp at h
  | cons x xs ih =>
    cases r with
    | zero => simp
    | succ r =>
      have hr : r < xs.length := by simpa using h
      simp only [List.take_succ_cons, List.sum_cons, List.getD_cons_succ]
      rw [ih r hr]
      ring

theorem sum_map_getD (f : ℚ → ℚ) (l : List ℚ) :
    (l.map f).sum = ∑ i in Finset.range l.length, f (l.getD i 0) := by
  induction l with
  | nil => simp
  | cons x xs ih =>
    simp only [List.map_cons, List.sum_cons, List.length_cons]
    rw [Finset.sum_range_succ', ih]
    simp [add_comm]

theorem take_sum_eq_range (l : List ℚ) (k : ℕ) (h : k ≤ l.length) :
    (l.take k).sum = ∑ i in Finset.range k, l.getD i 0 := by
  induction k with
  | zero => simp
  | succ k ih =>
    rw [take_sum_succ l k (by omega), Finset.sum_range_succ, ih (by omega)]

theorem getD_mem (l : List ℚ) (i : ℕ) (h : i < l.length) : l.getD i 0 ∈ l := by
  rw [List.getD_eq_getElem _ _ h]
  exact List.getElem_mem _

end FW

namespace FW

theorem findPivot_le (s cum : List ℚ) (tau : ℚ) (r : ℕ) : findPivot s cum tau r ≤ r := by
  induction r with
  | zero => simp [findPivot]
  | succ r ih =>
    rw [findPivot]
    split
    · exact le_refl _
    · exact le_trans ih (by omega)

theorem findPivot_pos_test (s cum : List ℚ) (tau : ℚ) (r : ℕ)
    (h : 0 < findPivot s cum tau r) :
    0 < s.getD (findPivot s cum tau r) 0 -
      (cum.getD (findPivot s cum tau r) 0 - tau) / ((findPivot s cum tau r : ℚ) + 1) := by
  induction r with
  | zero => simp [findPivot] at h
  | succ r ih =>
    rw [findPivot] at h ⊢
    by_cases htest : 0 < s.getD (r + 1) 0 - (cum.getD (r + 1) 0 - tau) / ((r : ℚ) + 2)
    · rw [if_pos htest]
      have hc : ((r : ℚ) + 2) = (((r + 1 : ℕ) : ℚ) + 1) := by push_cast; ring
      rw [hc] at htest
      exact htest
    · rw [if_neg htest] at h ⊢
      exact ih h

theorem findPivot_fail (s cum : List ℚ) (tau : ℚ) (r : ℕ) :
    ∀ j, findPivot s cum tau r < j → j ≤ r →
      s.getD j 0 - (cum.getD j 0 - tau) / ((j : ℚ) + 1) ≤ 0 := by
  induction r with
  | zero => intro j h1 h2; omega
  | succ r ih =>
    intro j h1 h2
    rw [findPivot] at h1
    split at h1
    · omega
    · next htest =>
      rcases Nat.lt_or_ge j (r + 1) with hj | hj
      · exact ih j h1 (by omega)
      · have hj2 : j = r + 1 := by omega
        subst hj2
        push_neg at htest
        have : ((r : ℚ) + 2) = (((r + 1 : ℕ) : ℚ) + 1) := by push_cast; ring
        rw [this] at htest
        linarith

end FW

namespace FW

theorem sortedAbs_perm (c : List ℚ) : (sortedAbs c).Perm (c.map (fun x => |x|)) :=
  List.perm_insertionSort _ _

theorem sortedAbs_length (c : List ℚ) : (sortedAbs c).length = c.length := by
  rw [(sortedAbs_perm c).length_eq, List.length_map]

theorem sortedAbs_nonneg (c : List ℚ) : ∀ x ∈ sortedAbs c, 0 ≤ x := by
  intro x hx
  rw [(sortedAbs_perm c).mem_iff] at hx
  rcases List.mem_map.1 hx with ⟨y, _, hy⟩
  rw [← hy]
  exact abs_nonneg y

theorem sortedAbs_sorted (c : List ℚ) : (sortedAbs c).Sorted (fun a b => b ≤ a) := by
  haveI h1 : IsTotal ℚ (fun a b => b ≤ a) := ⟨fun a b => le_total b a⟩
  haveI h2 : IsTrans ℚ (fun a b => b ≤ a) := ⟨fun a b c hab hbc => le_trans hbc hab⟩
  exact List.sorted_insertionSort _ _

theorem sortedAbs_getD_le (c : List ℚ) (i j : ℕ) (hij : i ≤ j)
    (hj : j < (sortedAbs c).length) :
    (sortedAbs c).getD j 0 ≤ (sortedAbs c).getD i 0 := by
  rcases eq_or_lt_of_le hij with heq | hlt
  · subst heq; exact le_refl _
  · have hi : i < (sortedAbs c).length := lt_trans hlt hj
    rw [List.getD_eq_get _ _ hj, List.getD_eq_get _ _ hi]
    exact List.Sorted.rel_get_of_lt (sortedAbs_sorted c) hlt

end FW

namespace FW

theorem pivot_bounds (s : List ℚ) (tau : ℚ) (rho : ℕ)
    (hsort : ∀ i j, i ≤ j → j < s.length → s.getD j 0 ≤ s.getD i 0)
    (hnn : ∀ x ∈ s, 0 ≤ x)
    (hrho_lt : rho < s.length)
    (hfail : rho + 1 < s.length →
      s.getD (rho + 1) 0 ≤ ((s.take (rho + 2)).sum - tau) / ((rho : ℚ) + 2))
    (htot : tau < s.sum) :
    0 ≤ (s.take (rho + 1)).sum - tau ∧
    ∀ j, rho < j → j < s.length →
      s.getD j 0 ≤ ((s.take (rho + 1)).sum - tau) / ((rho : ℚ) + 1) := by
  by_cases hcase : rho + 1 < s.length
  · have hfail2 := hfail hcase
    have ht2 : (s.take (rho + 2)).sum = (s.take (rho + 1)).sum + s.getD (rho + 1) 0 :=
      take_sum_succ s (rho + 1) hcase
    have hpos2 : (0 : ℚ) < (rho : ℚ) + 2 := by positivity
    have hmul : s.getD (rho + 1) 0 * ((rho : ℚ) + 2) ≤ (s.take (rho + 2)).sum - tau :=
      (le_div_iff hpos2).1 hfail2
    have hnn1 : 0 ≤ s.getD (rho + 1) 0 := hnn _ (getD_mem s (rho + 1) hcase)
    have hkey : s.getD (rho + 1) 0 * ((rho : ℚ) + 1) ≤ (s.take (rho + 1)).sum - tau := by
      rw [ht2] at hmul
      nlinarith
    have h0 : 0 ≤ (s.take (rho + 1)).sum - tau := by nlinarith
    have hpos1 : (0 : ℚ) < (rho : ℚ) + 1 := by positivity
    refine ⟨h0, fun j hj1 hj2 => ?_⟩
    have hle : s.getD j 0 ≤ s.getD (rho + 1) 0 := hsort (rho + 1) j hj1 hj2
    exact le_trans hle ((le_div_iff hpos1).2 hkey)
  · have htake : s.take (rho + 1) = s := List.take_of_length_le (by omega)
    refine ⟨by rw [htake]; linarith, fun j hj1 hj2 => ?_⟩
    omega

end FW

namespace FW

theorem sum_threshold_le (s : List ℚ) (tau : ℚ) (rho : ℕ)
    (hsort : ∀ i j, i ≤ j → j < s.length → s.getD j 0 ≤ s.getD i 0)
    (hnn : ∀ x ∈ s, 0 ≤ x)
    (hrho_lt : rho < s.length)
    (hrho1 : 1 ≤ rho)
    (hpivot : ((s.take (rho + 1)).sum - tau) / ((rho : ℚ) + 1) < s.getD rho 0)
    (hfail : rho + 1 < s.length →
      s.getD (rho + 1) 0 ≤ ((s.take (rho + 2)).sum - tau) / ((rho : ℚ) + 2))
    (htot : tau < s.sum) :
    (s.map (fun x => max (x - ((s.take (rho + 1)).sum - tau) / (rho : ℚ)) 0)).sum ≤ tau := by
  obtain ⟨h0, hbig⟩ := pivot_bounds s tau rho hsort hnn hrho_lt hfail htot
  have hrpos : (0 : ℚ) < (rho : ℚ) := by exact_mod_cast Nat.lt_of_lt_of_le Nat.zero_lt_one hrho1
  have hpos1 : (0 : ℚ) < (rho : ℚ) + 1 := by positivity
  have hth : ((s.take (rho + 1)).sum - tau) / ((rho : ℚ) + 1) ≤
      ((s.take (rho + 1)).sum - tau) / (rho : ℚ) := by
    rw [div_le_div_iff hpos1 hrpos]
    nlinarith
  rw [sum_map_getD]
  rw [Finset.range_eq_Ico,
    ← Finset.sum_Ico_consecutive _ (Nat.zero_le (rho + 1)) (by omega : rho + 1 ≤ s.length)]
  have hpart2 : ∑ i in Finset.Ico (rho + 1) s.length,
      max (s.getD i 0 - ((s.take (rho + 1)).sum - tau) / (rho : ℚ)) 0 = 0 := by
    apply Finset.sum_eq_zero
    intro j hj
    rw [Finset.mem_Ico] at hj
    have hj1 := hbig j (by omega) hj.2
    apply max_eq_right
    linarith
  have hpart1 : ∑ i in Finset.Ico 0 (rho + 1),
      max (s.getD i 0 - ((s.take (rho + 1)).sum - tau) / (rho : ℚ)) 0 ≤ tau := by
    have hstep : ∀ i ∈ Finset.Ico 0 (rho + 1),
        max (s.getD i 0 - ((s.take (rho + 1)).sum - tau) / (rho : ℚ)) 0 ≤
          s.getD i 0 - ((s.take (rho + 1)).sum - tau) / ((rho : ℚ) + 1) := by
      intro i hi
      rw [Finset.mem_Ico] at hi
      have hge : ((s.take (rho + 1)).sum - tau) / ((rho : ℚ) + 1) < s.getD i 0 :=
        lt_of_lt_of_le hpivot (hsort i rho (by omega) hrho_lt)
      apply max_le
      · linarith
      · linarith
    have hsum1 : ∑ i in Finset.Ico 0 (rho + 1),
        (s.getD i 0 - ((s.take (rho + 1)).sum - tau) / ((rho : ℚ) + 1)) = tau := by
      rw [Finset.sum_sub_distrib]
      rw [← Finset.range_eq_Ico, ← take_sum_eq_range s (rho + 1) (by omega)]
      rw [Finset.sum_const, Finset.card_range, nsmul_eq_mul]
      have hcast : ((rho + 1 : ℕ) : ℚ) = (rho : ℚ) + 1 := by push_cast; ring
      rw [hcast, mul_div_cancel₀ _ (ne_of_gt hpos1)]
      ring
    calc ∑ i in Finset.Ico 0 (rho + 1),
        max (s.getD i 0 - ((s.take (rho + 1)).sum - tau) / (rho : ℚ)) 0 ≤
        ∑ i in Finset.Ico 0 (rho + 1),
          (s.getD i 0 - ((s.take (rho + 1)).sum - tau) / ((rho : ℚ) + 1)) :=
          Finset.sum_le_sum hstep
      _ = tau := hsum1
  linarith

end FW

namespace FW

theorem abs_softThreshold (theta x : ℚ) : |softThreshold theta x| = max (|x| - theta) 0 := by
  rw [softThreshold]
  split
  · next h =>
    rw [abs_of_nonneg (le_max_right _ _), abs_of_nonneg h]
  · next h =>
    push_neg at h
    rw [abs_of_nonpos (min_le_right _ _), abs_of_neg h]
    rcases le_total (x + theta) 0 with hc | hc
    · rw [min_eq_left hc, max_eq_left (by linarith)]
      ring
    · rw [min_eq_right hc, max_eq_right (by linarith)]
      ring

theorem projection_sum_le (c : List ℚ) (tau : ℚ)
    (h1 : tau < (c.map (fun x => |x|)).sum)
    (h2 : 1 ≤ pivotOf c tau) :
    ((c.map (softThreshold (thetaOf c tau))).map (fun x => |x|)).sum ≤ tau := by
  have hdef : pivotOf c tau = findPivot (sortedAbs c) (cumsum (sortedAbs c)) tau
      (c.length - 1) := rfl
  have hlen : (sortedAbs c).length = c.length := sortedAbs_length c
  have hcne : c ≠ [] := by
    intro hc
    subst hc
    simp [pivotOf, findPivot] at h2
  have hnlen : 1 ≤ c.length := List.length_pos.2 hcne
  have hrle : pivotOf c tau ≤ c.length - 1 := findPivot_le _ _ _ _
  have hrlt : pivotOf c tau < (sortedAbs c).length := by rw [hlen]; omega
  have hteq : thetaOf c tau =
      (((sortedAbs c).take (pivotOf c tau + 1)).sum - tau) / ((pivotOf c tau : ℕ) : ℚ) := by
    rw [thetaOf, cumsum_getD _ _ hrlt]
  have hmm : ((c.map (softThreshold (thetaOf c tau))).map (fun x => |x|)) =
      c.map (fun x => max (|x| - thetaOf c tau) 0) := by
    rw [List.map_map]
    congr 1
    funext x
    exact abs_softThreshold _ x
  have hperm : ((sortedAbs c).map (fun t => max (t - thetaOf c tau) 0)).sum =
      (c.map (fun x => max (|x| - thetaOf c tau) 0)).sum := by
    have hp := ((sortedAbs_perm c).map (fun t => max (t - thetaOf c tau) 0)).sum_eq
    rw [List.map_map] at hp
    exact hp
  rw [hmm, ← hperm, hteq]
  apply sum_threshold_le (sortedAbs c) tau (pivotOf c tau)
    (fun i j hij hj => sortedAbs_getD_le c i j hij hj) (sortedAbs_nonneg c) hrlt h2
  · have hpiv := findPivot_pos_test (sortedAbs c) (cumsum (sortedAbs c)) tau (c.length - 1)
      (by rw [← hdef]; omega)
    rw [← hdef] at hpiv
    rw [cumsum_getD _ _ hrlt] at hpiv
    linarith
  · intro hlt
    have hfl := findPivot_fail (sortedAbs c) (cumsum (sortedAbs c)) tau (c.length - 1)
      (pivotOf c tau + 1) (by omega) (by omega)
    have hlt2 : pivotOf c tau + 1 < (sortedAbs c).length := hlt
    rw [cumsum_getD _ _ hlt2] at hfl
    have hcast : (((pivotOf c tau + 1 : ℕ)) : ℚ) + 1 = ((pivotOf c tau : ℕ) : ℚ) + 2 := by
      push_cast
      ring
    rw [hcast] at hfl
    linarith
  · rw [(sortedAbs_perm c).sum_eq]
    exact h1

end FW

namespace FW

theorem theta_std_le_theta (c : List ℚ) (tau : ℚ)
    (h1 : tau < (c.map (fun x => |x|)).sum)
    (h2 : 1 ≤ pivotOf c tau) :
    ((cumsum (sortedAbs c)).getD (pivotOf c tau) 0 - tau) / (((pivotOf c tau : ℕ) : ℚ) + 1) ≤
      thetaOf c tau := by
  have hdef : pivotOf c tau = findPivot (sortedAbs c) (cumsum (sortedAbs c)) tau
      (c.length - 1) := rfl
  have hlen : (sortedAbs c).length = c.length := sortedAbs_length c
  have hcne : c ≠ [] := by
    intro hc
    subst hc
    simp [pivotOf, findPivot] at h2
  have hnlen : 1 ≤ c.length := List.length_pos.2 hcne
  have hrle : pivotOf c tau ≤ c.length - 1 := findPivot_le _ _ _ _
  have hrlt : pivotOf c tau < (sortedAbs c).length := by rw [hlen]; omega
  have hfail : pivotOf c tau + 1 < (sortedAbs c).length →
      (sortedAbs c).getD (pivotOf c tau + 1) 0 ≤
        (((sortedAbs c).take (pivotOf c tau + 2)).sum - tau) / ((pivotOf c tau : ℚ) + 2) := by
    intro hlt
    have hfl := findPivot_fail (sortedAbs c) (cumsum (sortedAbs c)) tau (c.length - 1)
      (pivotOf c tau + 1) (by omega) (by omega)
    rw [cumsum_getD _ _ hlt] at hfl
    have hcast : (((pivotOf c tau + 1 : ℕ)) : ℚ) + 1 = ((pivotOf c tau : ℕ) : ℚ) + 2 := by
      push_cast
      ring
    rw [hcast] at hfl
    linarith
  have htot : tau < (sortedAbs c).sum := by
    rw [(sortedAbs_perm c).sum_eq]
    exact h1
  obtain ⟨h0, _⟩ := pivot_bounds (sortedAbs c) tau (pivotOf c tau)
    (fun i j hij hj => sortedAbs_getD_le c i j hij hj) (sortedAbs_nonneg c) hrlt hfail htot
  have hrpos : (0 : ℚ) < ((pivotOf c tau : ℕ) : ℚ) := by exact_mod_cast h2
  rw [thetaOf, cumsum_getD _ _ hrlt]
  rw [div_le_div_iff (by positivity) hrpos]
  nlinarith

/-- Claim C7: for every coefficient vector whose absolute values sum to
more than `tau` and whose pivot scan stops at `rho ≥ 1`, `ProjectionToL1`
succeeds, the computed `theta = (cum(rho) - tau)/rho` is at least the
standard threshold `(cum(rho) - tau)/(rho + 1)`, and the sum of absolute
values of the output is at most `tau` (the result lies inside the L1 ball
of radius `tau`). -/
theorem projection_result_in_ball (c : List ℚ) (tau : ℚ)
    (h1 : tau < (c.map (fun x => |x|)).sum)
    (h2 : 1 ≤ pivotOf c tau) :
    ProjectionToL1 c tau = some (c.map (softThreshold (thetaOf c tau))) ∧
    ((c.map (softThreshold (thetaOf c tau))).map (fun x => |x|)).sum ≤ tau ∧
    ((cumsum (sortedAbs c)).getD (pivotOf c tau) 0 - tau) / (((pivotOf c tau : ℕ) : ℚ) + 1) ≤
      thetaOf c tau := by
  have hcne : c ≠ [] := by
    intro hc
    subst hc
    simp [pivotOf, findPivot] at h2
  refine ⟨?_, projection_sum_le c tau h1 h2, theta_std_le_theta c tau h1 h2⟩
  rw [ProjectionToL1, if_neg (not_le.2 h1), if_neg (by simpa using hcne), if_neg (by omega)]

/-- Claim C6: the L1-ball projection is idempotent wherever it is defined:
every output of `ProjectionToL1` at radius `tau` is a fixed point of
`ProjectionToL1` at the same `tau` (a successful projection produces a
feasible vector, which the next application returns unchanged). -/
theorem projection_idempotent (c : List ℚ) (tau : ℚ) (y : List ℚ)
    (h : ProjectionToL1 c tau = some y) :
    ProjectionToL1 y tau = some y := by
  rw [ProjectionToL1] at h
  split at h
  · next hfeas =>
    have hy : c = y := Option.some_injective _ h
    subst hy
    rw [ProjectionToL1, if_pos hfeas]
  · next hinfeas =>
    split at h
    · exact absurd h (by simp)
    · split at h
      · exact absurd h (by simp)
      · next hpiv =>
        have hy : c.map (softThreshold (thetaOf c tau)) = y := Option.some_injective _ h
        have hfeas2 : (y.map (fun x => |x|)).sum ≤ tau := by
          rw [← hy]
          exact projection_sum_le c tau (not_le.1 hinfeas) (by omega)
        rw [ProjectionToL1, if_pos hfeas2]

/-- Witness for claim C6 at the concrete input `c = [2, 2]`, `tau = 1`,
whose projection is `[0, 0]`. -/
theorem projection_idempotent_witness : ProjectionToL1 [(0 : ℚ), 0] 1 = some [0, 0] :=
  projection_idempotent [2, 2] 1 [0, 0] (by
    norm_num [ProjectionToL1, pivotOf, thetaOf, sortedAbs, sortDesc, cumsum, findPivot,
      softThreshold, List.insertionSort, List.orderedInsert])

/-- Witness for claim C7 at the concrete input `c = [0.7, 0.5, -0.9]`,
`tau = 1` (pivot `rho = 2`). -/
theorem projection_result_in_ball_witness :
    ProjectionToL1 [(7 : ℚ)/10, 1/2, -9/10] 1 =
      some ([(7 : ℚ)/10, 1/2, -9/10].map (softThreshold (thetaOf [(7 : ℚ)/10, 1/2, -9/10] 1))) ∧
    (([(7 : ℚ)/10, 1/2, -9/10].map
        (softThreshold (thetaOf [(7 : ℚ)/10, 1/2, -9/10] 1))).map (fun x => |x|)).sum ≤ 1 ∧
    ((cumsum (sortedAbs [(7 : ℚ)/10, 1/2, -9/10])).getD (pivotOf [(7 : ℚ)/10, 1/2, -9/10] 1) 0 -
        1) / (((pivotOf [(7 : ℚ)/10, 1/2, -9/10] 1 : ℕ) : ℚ) + 1) ≤
      thetaOf [(7 : ℚ)/10, 1/2, -9/10] 1 :=
  projection_result_in_ball [(7 : ℚ)/10, 1/2, -9/10] 1
    (by norm_num [abs_div, abs_neg])
    (by norm_num [pivotOf, sortedAbs, sortDesc, cumsum, findPivot, List.insertionSort,
      List.orderedInsert, abs_div, abs_neg])

end FW
